import Mathlib

/-!
Shallow embedding of the curv Feldman-VSS core
(`src/cryptographic_primitives/secret_sharing/feldman_vss.rs`) and of the
secp256k1 codec layer (`src/elliptic/curves/secp256_k1.rs`).

The scalar field `FE` of the active curve is modelled by an arbitrary field
`F` (the source is generic over the `ECScalar` trait; the concrete backend
realises `Z_q`).  The curve group `GE` is modelled by an `F`-module `G`
with a distinguished generator `g` (the source is generic over `ECPoint`;
the concrete group has prime exponent `q`, hence is a `Z_q`-module).
Rust panics (`assert!`, `unwrap`) are modelled by `Option.none`.
Every index/evaluation point the VSS code converts into a scalar first
passes through an `as u32` cast (`feldman_vss.rs:76,101,156,178`), modelled
by `% U32_MOD`; the backend field `invert`, which per spec must signal
failure on the zero element, is modelled by the `Option`-valued `invert`.
-/

namespace Curv

/-- `ErrorSS` from `src/lib.rs`. -/
inductive ErrorSS
  | VerifyShareError
deriving DecidableEq, Repr

/-- `2^32`: the modulus of the `as u32` casts that the VSS code applies to
every index or evaluation point before converting it into a scalar
(`feldman_vss.rs:76,101,156,178`). -/
def U32_MOD : Nat := 4294967296

/-- Modelled from the spec: the backend field `invert` of the
ScalarField contract fails on the zero element (spec §4.1/§7, "invert
fails only on the zero element ... backends must signal this distinctly");
`none` models that failure signal. -/
def invert {F : Type} [Field F] [DecidableEq F] (x : F) : Option F :=
  if x = 0 then none else some x⁻¹

/-- `ShamirSecretSharing` from `feldman_vss.rs`. -/
structure ShamirSecretSharing where
  threshold : Nat
  share_count : Nat
deriving DecidableEq, Repr

/-- `VerifiableSS` from `feldman_vss.rs`: the Shamir parameters together
with the list of coefficient commitments (group elements). -/
structure VerifiableSS (G : Type) where
  parameters : ShamirSecretSharing
  commitments : List G
deriving DecidableEq, Repr

/-- `VerifiableSS::reconstruct_limit`. -/
def VerifiableSS.reconstruct_limit {G : Type} (self : VerifiableSS G) : Nat :=
  self.parameters.threshold + 1

/-- `VerifiableSS::sample_polynomial`.  The secure random sampling of the
`t` non-constant coefficients is an injected capability `rand`
(`ECScalar::new_random` draws coefficient `i` at call number `i`). -/
def sample_polynomial {F : Type} (t : Nat) (coef0 : F) (rand : Nat → F) : List F :=
  coef0 :: (List.range t).map rand

/-- `VerifiableSS::mod_evaluate_polynomial`: Horner evaluation folding over
the reversed coefficient list.  The source takes the head of the reversed
iterator with `unwrap()`; it is only ever called on the nonempty output of
`sample_polynomial`, and the `[]` branch (a panic in the source) is never
reached. -/
def mod_evaluate_polynomial {F : Type} [Field F] (coefficients : List F) (point : F) : F :=
  match coefficients.reverse with
  | [] => 0
  | head :: tail => tail.foldl (fun acc coef => acc * point + coef) head

/-- `VerifiableSS::evaluate_polynomial`: evaluate at the points `1..=n`,
each truncated by the `point as u32` cast of `feldman_vss.rs:76`. -/
def evaluate_polynomial {F : Type} [Field F] (n : Nat) (coefficients : List F) : List F :=
  (List.range' 1 n).map (fun point : Nat =>
    mod_evaluate_polynomial coefficients ((point % U32_MOD : Nat) : F))

/-- `VerifiableSS::share`. -/
def VerifiableSS.share {F G : Type} [Field F] [AddCommGroup G] [Module F G]
    (g : G) (t n : Nat) (secret : F) (rand : Nat → F) : VerifiableSS G × List F :=
  let poly := sample_polynomial t secret rand
  let secret_shares := evaluate_polynomial n poly
  let commitments := poly.map (fun a => a • g)
  (⟨⟨t, n⟩, commitments⟩, secret_shares)

/-- `VerifiableSS::lagrange_interpolation_at_zero`.  `none` models the
`assert_eq!` on the two lengths, the backend `invert` failure on a zero
denominator (spec §7), and the `unwrap()` of the head of `lag_coef`
(all aborts in the source). -/
def lagrange_interpolation_at_zero {F : Type} [Field F] [DecidableEq F]
    (points : List F) (values : List F) : Option F :=
  let vec_len := values.length
  if points.length = vec_len then
    let lag_coef := (List.range vec_len).map (fun i =>
      let xi := points.getD i 0
      let yi := values.getD i 0
      let num := (points.zip (List.range vec_len)).foldl
        (fun acc x => if i ≠ x.2 then acc * x.1 else acc) 1
      let denum := (points.zip (List.range vec_len)).foldl
        (fun acc x => if i ≠ x.2 then acc * (x.1 - xi) else acc) 1
      (invert denum).map (fun dinv => num * dinv * yi))
    if lag_coef.all Option.isSome then
      match lag_coef.map (fun o => o.getD 0) with
      | [] => none
      | head :: tail => some (tail.foldl (fun acc x => acc + x) head)
    else none
  else none

/-- `VerifiableSS::reconstruct`.  `none` models the two `assert!` panics on
badly sized input; each point is `i as u32 + 1` (`feldman_vss.rs:101`),
a wrapping `u32` computation. -/
def VerifiableSS.reconstruct {G F : Type} [Field F] [DecidableEq F] (self : VerifiableSS G)
    (indices : List Nat) (shares : List F) : Option F :=
  if shares.length = indices.length ∧ shares.length ≥ self.reconstruct_limit then
    let points : List F := indices.map (fun i => (((i % U32_MOD + 1) % U32_MOD : Nat) : F))
    lagrange_interpolation_at_zero points shares
  else none

/-- `VerifiableSS::validate_share`.  `none` models the `unwrap()` panic on
an empty commitment vector; `some` carries the `Result<(), ErrorSS>`.
The index passes through the `index as u32` cast of `feldman_vss.rs:156`. -/
def VerifiableSS.validate_share {G F : Type} [Field F] [AddCommGroup G] [Module F G]
    [DecidableEq G] (g : G) (self : VerifiableSS G) (secret_share : F) (index : Nat) :
    Option (Except ErrorSS Unit) :=
  match self.commitments.reverse with
  | [] => none
  | head :: tail =>
    let index_fe : F := ((index % U32_MOD : Nat) : F)
    let ss_point := secret_share • g
    let comm_to_point := tail.foldl (fun acc x => x + index_fe • acc) head
    some (if ss_point = comm_to_point then Except.ok () else Except.error ErrorSS.VerifyShareError)

/-- The table of evaluation points built by
`VerifiableSS::map_share_to_new_params`: entry `i` is the wrapping `u32`
computation `i as u32 + 1` of `feldman_vss.rs:178`. -/
def vss_points (F : Type) [Field F] (n : Nat) : List F :=
  (List.range n).map (fun i => (((i % U32_MOD + 1) % U32_MOD : Nat) : F))

/-- `VerifiableSS::map_share_to_new_params`.  The outer `none` models the
`assert!(s_len > reconstruct_limit)` panic; the next `none` models the
out-of-bounds indexing panics on `points[index]` and `points[s[i]]`
(a slot `s[i]` is only looked up when `s[i] != index`); the final
`(invert denum).map` propagates the backend invert failure on a zero
denominator (spec §7). -/
def VerifiableSS.map_share_to_new_params {G : Type} (F : Type) [Field F] [DecidableEq F]
    (self : VerifiableSS G) (index : Nat) (s : List Nat) : Option F :=
  let s_len := s.length
  if s_len > self.reconstruct_limit then
    let points : List F := vss_points F self.parameters.share_count
    if index < points.length ∧ ∀ j ∈ s, j ≠ index → j < points.length then
      let xi := points.getD index 0
      let num := (List.range s_len).foldl
        (fun acc i => if s.getD i 0 ≠ index then acc * points.getD (s.getD i 0) 0 else acc) 1
      let denum := (List.range s_len).foldl
        (fun acc i => if s.getD i 0 ≠ index then acc * (points.getD (s.getD i 0) 0 - xi) else acc) 1
      (invert denum).map (fun dinv => num * dinv)
    else none
  else none

/-! ## Byte-level model of the secp256k1 codec layer -/

/-- Fuel-driven little-endian byte decomposition (fuel `f` bounds the
number of divisions; `bytesLE` below supplies enough). -/
def bytesLEAux : Nat → Nat → List Nat
  | 0, _ => []
  | f + 1, n => if n = 0 then [] else n % 256 :: bytesLEAux f (n / 256)

/-- Minimal little-endian byte representation of a natural number
(empty for `0`). -/
def bytesLE (n : Nat) : List Nat := bytesLEAux n n

/-- Modelled from the spec: `BigInt::to_vec` (the external bignum export)
yields the minimal big-endian byte string of the integer, with no leading
zeros and the empty string for `0` — witnessed by `from_big_int`'s explicit
left-padding of short outputs in `secp256_k1.rs`. -/
def to_vec (n : Nat) : List Nat := (bytesLE n).reverse

/-- Value of a little-endian byte string. -/
def fromBytesLE (l : List Nat) : Nat := l.foldr (fun b acc => b + 256 * acc) 0

/-- Modelled from the spec: `BigInt::from(&[u8])` reads a big-endian byte
string. -/
def fromBytesBE (l : List Nat) : Nat := fromBytesLE l.reverse

/-- The group order `q` of secp256k1 (the external constant
`secp256k1::constants::CURVE_ORDER`). -/
def CURVE_ORDER : Nat :=
  115792089237316195423570985008687907852837564279074904382605163141518161494337

/-- `secp256k1::constants::SECRET_KEY_SIZE`. -/
def SECRET_KEY_SIZE : Nat := 32

/-- Modelled from the spec: the external `secp256k1::SecretKey::from_slice`
accepts exactly `SECRET_KEY_SIZE`-byte big-endian buffers encoding a value
in `[1, CURVE_ORDER)` and rejects everything else.  A secret key is
modelled by its byte string. -/
def SecretKey.from_slice (l : List Nat) : Option (List Nat) :=
  if l.length = SECRET_KEY_SIZE ∧ 0 < fromBytesBE l ∧ fromBytesBE l < CURVE_ORDER then
    some l
  else none

/-- `SecretKeyCodec::from_big_int` from `secp256_k1.rs`: minimal big-endian
bytes, left-padded with zeros up to 32 bytes when short, then
`SecretKey::from_slice(..).unwrap()` (`none` models the `unwrap` panic). -/
def SecretKey.from_big_int (n : Nat) : Option (List Nat) :=
  let v := to_vec n
  let v2 := if v.length < SECRET_KEY_SIZE then
      List.replicate (SECRET_KEY_SIZE - v.length) 0 ++ v
    else v
  SecretKey.from_slice v2

/-- `SecretKeyCodec::to_big_int` from `secp256_k1.rs`:
`BigInt::from(&self[0..self.len()])`. -/
def SecretKey.to_big_int (self : List Nat) : Nat := fromBytesBE self

/-- The `Point` struct: a coordinate pair of arbitrary-precision integers. -/
structure Point where
  x : Nat
  y : Nat
deriving DecidableEq, Repr

/-- `PublicKeyCodec::KEY_SIZE`. -/
def KEY_SIZE : Nat := 65

/-- `PublicKeyCodec::HEADER_MARKER` (4 = uncompressed form). -/
def HEADER_MARKER : Nat := 4

/-- `PublicKeyCodec::to_key_slice` from `secp256_k1.rs`: one marker byte
followed by the `BigInt::to_vec` bytes of `x` and of `y`. -/
def PublicKey.to_key_slice (p : Point) : List Nat :=
  HEADER_MARKER :: (to_vec p.x ++ to_vec p.y)

/-- `PublicKeyCodec::from_key_slice` from `secp256_k1.rs`.  `none` models
the `assert_eq!` panics on the length and on the marker byte; the two
coordinate slices are `key[1 .. len/2 + 1]` and `key[(len-1)/2 + 1 .. len]`. -/
def PublicKey.from_key_slice (key : List Nat) : Option Point :=
  if key.length = KEY_SIZE then
    let header := key.getD 0 0
    if header = HEADER_MARKER then
      let x := (key.drop 1).take (key.length / 2 + 1 - 1)
      let y := (key.drop ((key.length - 1) / 2 + 1)).take
        (key.length - ((key.length - 1) / 2 + 1))
      some ⟨fromBytesBE x, fromBytesBE y⟩
    else none
  else none

/-- The secp256k1 base-field prime `p` (the external curve constant). -/
def secp256k1_p : Nat :=
  115792089237316195423570985008687907853269984665640564039457584007908834671663

/-- Modelled from the spec: a valid curve point has reduced coordinates
satisfying the secp256k1 equation `y² = x³ + 7` over `F_p`. -/
def onCurve (p : Point) : Prop :=
  p.x < secp256k1_p ∧ p.y < secp256k1_p ∧
    (p.y * p.y) % secp256k1_p = (p.x * p.x * p.x + 7) % secp256k1_p

instance (p : Point) : Decidable (onCurve p) :=
  decidable_of_iff (p.x < secp256k1_p ∧ p.y < secp256k1_p ∧
    (p.y * p.y) % secp256k1_p = (p.x * p.x * p.x + 7) % secp256k1_p) Iff.rfl

/-- A valid secp256k1 point whose `x`-coordinate is `1`: its minimal
big-endian byte string is a single byte. -/
def pSmallX : Point :=
  ⟨1, 29896722852569046015560700294576055776214335159245303116488692907525646231534⟩

/-! ## Spec-side bridge definitions -/

open Polynomial in
/-- The abstract polynomial with the given (low-to-high) coefficient list. -/
noncomputable def polyOfList {F : Type} [Field F] : List F → F[X]
  | [] => 0
  | a :: rest => Polynomial.C a + Polynomial.X * polyOfList rest

/-- The commitment polynomial evaluated in the group at `x`:
`Σ_k x^k • C_k`, the mathematical reading of the Horner loop in
`validate_share`. -/
def commPolyEval {F G : Type} [Field F] [AddCommGroup G] [Module F G]
    (comms : List G) (x : F) : G :=
  ∑ k in Finset.range comms.length, x ^ k • comms.getD k 0

/-! ## List and fold helper lemmas -/

theorem foldl_mul_ite {M : Type} [CommMonoid M] {α : Type} (p : α → Prop) [DecidablePred p]
    (f : α → M) : ∀ (l : List α) (a : M),
    l.foldl (fun acc x => if p x then acc * f x else acc) a =
      a * (l.map (fun x => if p x then f x else 1)).prod
  | [], a => by simp
  | x :: l, a => by
    rw [List.foldl_cons, foldl_mul_ite p f l, List.map_cons, List.prod_cons]
    by_cases h : p x <;> simp [h, mul_assoc]

theorem foldl_add_eq {M : Type} [AddCommMonoid M] : ∀ (l : List M) (a : M),
    l.foldl (fun acc x => acc + x) a = a + l.sum
  | [], a => by simp
  | x :: l, a => by rw [List.foldl_cons, foldl_add_eq l, List.sum_cons, add_assoc]

theorem range_map_sum {M : Type} [AddCommMonoid M] (f : Nat → M) (n : Nat) :
    ((List.range n).map f).sum = ∑ i in Finset.range n, f i := by
  induction n with
  | zero => simp
  | succ m ih => rw [List.range_succ, Finset.sum_range_succ, ← ih]; simp

theorem range_map_prod {M : Type} [CommMonoid M] (f : Nat → M) (n : Nat) :
    ((List.range n).map f).prod = ∏ i in Finset.range n, f i := by
  induction n with
  | zero => simp
  | succ m ih => rw [List.range_succ, Finset.prod_range_succ, ← ih]; simp

theorem getD_map_lt {α β : Type} (l : List α) (f : α → β) (i : Nat) (h : i < l.length)
    (d : α) (d' : β) : (l.map f).getD i d' = f (l.getD i d) := by
  rw [List.getD_eq_getElem _ d' (by simpa using h), List.getElem_map,
    List.getD_eq_getElem _ _ h]

theorem zip_range_eq {F : Type} [Zero F] (points : List F) (k : Nat)
    (hk : points.length = k) :
    points.zip (List.range k) = (List.range k).map (fun j => (points.getD j 0, j)) := by
  apply List.ext_getElem
  · simp [hk]
  · intro i h1 h2
    have hik : i < k := by simpa using h2
    have hip : i < points.length := hk ▸ hik
    simp [List.getElem_zip, List.getElem_range, List.getD_eq_getElem points 0 hip,
      List.getElem?_eq_getElem hip]

/-! ## Horner evaluation agrees with polynomial evaluation -/

theorem polyOfList_coeff {F : Type} [Field F] : ∀ (l : List F) (k : Nat),
    (polyOfList l).coeff k = l.getD k 0
  | [], k => by simp [polyOfList]
  | a :: rest, 0 => by
    simp [polyOfList, Polynomial.coeff_add, Polynomial.coeff_C, Polynomial.mul_coeff_zero]
  | a :: rest, k + 1 => by
    rw [polyOfList, Polynomial.coeff_add, Polynomial.coeff_C, Polynomial.coeff_X_mul,
      polyOfList_coeff rest k]
    simp [List.getD]

theorem polyOfList_degree_lt {F : Type} [Field F] (l : List F) :
    (polyOfList l).degree < l.length := by
  rw [Polynomial.degree_lt_iff_coeff_zero]
  intro m hm
  rw [polyOfList_coeff]
  exact List.getD_eq_default l 0 (by exact_mod_cast hm)

theorem polyOfList_eval_zero {F : Type} [Field F] (l : List F) :
    (polyOfList l).eval 0 = l.getD 0 0 := by
  rw [← Polynomial.coeff_zero_eq_eval_zero, polyOfList_coeff]

theorem polyOfList_eval_sum {F : Type} [Field F] : ∀ (l : List F) (x : F),
    (polyOfList l).eval x = ∑ k in Finset.range l.length, l.getD k 0 * x ^ k
  | [], x => by simp [polyOfList]
  | a :: rest, x => by
    rw [polyOfList, Polynomial.eval_add, Polynomial.eval_C, Polynomial.eval_mul,
      Polynomial.eval_X, polyOfList_eval_sum rest x, List.length_cons,
      Finset.sum_range_succ']
    simp only [List.getD_cons_succ, List.getD_cons_zero, pow_zero, mul_one, pow_succ]
    rw [Finset.mul_sum, add_comm]
    congr 1
    exact Finset.sum_congr rfl fun k _ => by ring

theorem mod_eval_cons {F : Type} [Field F] (a : F) (rest : List F) (h : rest ≠ []) (x : F) :
    mod_evaluate_polynomial (a :: rest) x = mod_evaluate_polynomial rest x * x + a := by
  rcases List.exists_cons_of_ne_nil (List.reverse_ne_nil_iff.mpr h) with ⟨b, t, ht⟩
  unfold mod_evaluate_polynomial
  rw [List.reverse_cons, ht, List.cons_append]
  show List.foldl _ b (t ++ [a]) = List.foldl _ b t * x + a
  rw [List.foldl_append]
  simp

theorem mod_eval_eq_eval {F : Type} [Field F] : ∀ (l : List F) (x : F),
    mod_evaluate_polynomial l x = (polyOfList l).eval x
  | [], x => by simp [mod_evaluate_polynomial, polyOfList]
  | [a], x => by simp [mod_evaluate_polynomial, polyOfList]
  | a :: b :: rest, x => by
    rw [mod_eval_cons a (b :: rest) (by simp) x, mod_eval_eq_eval (b :: rest) x]
    simp [polyOfList]
    ring

theorem evaluate_polynomial_getD_wrap {F : Type} [Field F] (n : Nat) (coeffs : List F)
    (j : Nat) (hj : j < n) :
    (evaluate_polynomial n coeffs).getD j 0 =
      (polyOfList coeffs).eval ((((j + 1) % U32_MOD) : Nat) : F) := by
  have h2 : j < (List.range' 1 n).length := by rw [List.length_range']; exact hj
  have hv : (List.range' 1 n).getD j 0 = j + 1 := by
    rw [List.getD_eq_getElem _ _ h2]
    simp [List.getElem_range']
    omega
  unfold evaluate_polynomial
  rw [getD_map_lt _ _ j h2 0 0, mod_eval_eq_eval, hv]

theorem evaluate_polynomial_getD {F : Type} [Field F] (n : Nat) (coeffs : List F)
    (j : Nat) (hj : j < n) (hn32 : n < U32_MOD) :
    (evaluate_polynomial n coeffs).getD j 0 =
      (polyOfList coeffs).eval ((j + 1 : Nat) : F) := by
  rw [evaluate_polynomial_getD_wrap n coeffs j hj, Nat.mod_eq_of_lt (by omega)]

/-! ## The Lagrange sum computed by the code evaluates the polynomial at zero -/

theorem lagrange_core {F ι : Type} [Field F] [DecidableEq ι] (σ : Finset ι) (v : ι → F)
    (P : Polynomial F) (hinj : Set.InjOn v σ) (hdeg : P.degree < σ.card) :
    ∑ i in σ, (∏ j in σ.erase i, v j) * (∏ j in σ.erase i, (v j - v i))⁻¹ * P.eval (v i)
      = P.eval 0 := by
  have hP := Lagrange.eq_interpolate hinj hdeg
  conv_rhs => rw [hP]
  rw [Lagrange.interpolate_apply, Polynomial.eval_finset_sum]
  refine Finset.sum_congr rfl fun i hi => ?_
  rw [Polynomial.eval_mul, Polynomial.eval_C, Lagrange.basis, Polynomial.eval_prod]
  have hterm : ∀ j ∈ σ.erase i, (Lagrange.basisDivisor (v i) (v j)).eval 0
      = v j * (v j - v i)⁻¹ := by
    intro j _
    rw [Lagrange.basisDivisor, Polynomial.eval_mul, Polynomial.eval_C, Polynomial.eval_sub,
      Polynomial.eval_X, Polynomial.eval_C]
    have : v j - v i = -(v i - v j) := by ring
    rw [this, inv_neg]
    ring
  rw [Finset.prod_congr rfl hterm, Finset.prod_mul_distrib, ← Finset.prod_inv_distrib]
  ring

theorem lag_fold_eq {F : Type} [Field F] (points : List F) (k : Nat) (hpk : points.length = k)
    (i : Nat) (h : F → F) :
    (points.zip (List.range k)).foldl (fun acc x => if i ≠ x.2 then acc * h x.1 else acc) 1 =
      ∏ j in (Finset.range k).erase i, h (points.getD j 0) := by
  rw [foldl_mul_ite (fun x : F × Nat => i ≠ x.2) (fun x => h x.1), one_mul,
    zip_range_eq points k hpk, List.map_map]
  have hc : ((fun x : F × Nat => if i ≠ x.2 then h x.1 else 1) ∘ fun j => (points.getD j 0, j)) =
      fun j => if i ≠ j then h (points.getD j 0) else 1 := rfl
  rw [hc, range_map_prod, ← Finset.prod_filter]
  congr 1
  exact Finset.filter_ne (Finset.range k) i

theorem lagrange_list_eq {F : Type} [Field F] [DecidableEq F] (points values : List F)
    (k : Nat) (hk : values.length = k) (hpk : points.length = k) (hne : 0 < k)
    (hdnz : ∀ i, i < k →
      (∏ j in (Finset.range k).erase i, (points.getD j 0 - points.getD i 0)) ≠ 0) :
    lagrange_interpolation_at_zero points values =
      some (∑ i in Finset.range k,
        (∏ j in (Finset.range k).erase i, points.getD j 0) *
          (∏ j in (Finset.range k).erase i, (points.getD j 0 - points.getD i 0))⁻¹ *
          values.getD i 0) := by
  have hmap : ∀ i ∈ List.range k,
      (invert ((points.zip (List.range k)).foldl
          (fun acc x => if i ≠ x.2 then acc * (x.1 - points.getD i 0) else acc) 1)).map
        (fun dinv => ((points.zip (List.range k)).foldl
          (fun acc x => if i ≠ x.2 then acc * x.1 else acc) 1) * dinv * values.getD i 0) =
      some ((∏ j in (Finset.range k).erase i, points.getD j 0) *
        (∏ j in (Finset.range k).erase i, (points.getD j 0 - points.getD i 0))⁻¹ *
        values.getD i 0) := by
    intro i hi
    rw [lag_fold_eq points k hpk i (fun a => a), lag_fold_eq points k hpk i
      (fun a => a - points.getD i 0)]
    simp only [invert, if_neg (hdnz i (List.mem_range.mp hi))]
    rfl
  simp only [lagrange_interpolation_at_zero]
  rw [hk, if_pos hpk, List.map_congr_left hmap]
  rw [if_pos (by
    rw [List.all_eq_true]
    intro x hx
    rcases List.mem_map.mp hx with ⟨i, -, rfl⟩
    rfl)]
  rw [List.map_map]
  have hcomp : ((fun o : Option F => o.getD 0) ∘ fun i =>
      some ((∏ j in (Finset.range k).erase i, points.getD j 0) *
        (∏ j in (Finset.range k).erase i, (points.getD j 0 - points.getD i 0))⁻¹ *
        values.getD i 0)) = fun i =>
      (∏ j in (Finset.range k).erase i, points.getD j 0) *
        (∏ j in (Finset.range k).erase i, (points.getD j 0 - points.getD i 0))⁻¹ *
        values.getD i 0 := rfl
  rw [hcomp]
  cases hL : (List.range k).map (fun i =>
      (∏ j in (Finset.range k).erase i, points.getD j 0) *
        (∏ j in (Finset.range k).erase i, (points.getD j 0 - points.getD i 0))⁻¹ *
        values.getD i 0) with
  | nil =>
    exfalso
    have := congrArg List.length hL
    simp at this
    omega
  | cons a t =>
    show some (t.foldl (fun acc x => acc + x) a) = _
    rw [foldl_add_eq]
    have hsum : a + t.sum = ((List.range k).map (fun i =>
        (∏ j in (Finset.range k).erase i, points.getD j 0) *
          (∏ j in (Finset.range k).erase i, (points.getD j 0 - points.getD i 0))⁻¹ *
          values.getD i 0)).sum := by
      rw [hL, List.sum_cons]
    rw [hsum, range_map_sum]

theorem lagrange_none_of_denum_zero {F : Type} [Field F] [DecidableEq F]
    (points values : List F) (hlen : points.length = values.length)
    (i : Nat) (hik : i < values.length)
    (hz : (∏ j in (Finset.range values.length).erase i,
      (points.getD j 0 - points.getD i 0)) = 0) :
    lagrange_interpolation_at_zero points values = none := by
  simp only [lagrange_interpolation_at_zero]
  rw [if_pos hlen]
  rw [if_neg]
  intro hall
  have hmem : (invert ((points.zip (List.range values.length)).foldl
      (fun acc x => if i ≠ x.2 then acc * (x.1 - points.getD i 0) else acc) 1)).map
      (fun dinv => ((points.zip (List.range values.length)).foldl
        (fun acc x => if i ≠ x.2 then acc * x.1 else acc) 1) * dinv * values.getD i 0) ∈
      (List.range values.length).map (fun i =>
        (invert ((points.zip (List.range values.length)).foldl
          (fun acc x => if i ≠ x.2 then acc * (x.1 - points.getD i 0) else acc) 1)).map
        (fun dinv => ((points.zip (List.range values.length)).foldl
          (fun acc x => if i ≠ x.2 then acc * x.1 else acc) 1) * dinv * values.getD i 0)) :=
    List.mem_map_of_mem _ (List.mem_range.mpr hik)
  have := List.all_eq_true.mp hall _ hmem
  rw [lag_fold_eq points values.length hlen i (fun a => a - points.getD i 0), hz] at this
  simp [invert] at this

/-! ## Correctness of sharing and reconstruction -/

theorem share_getD_wrap {F G : Type} [Field F] [AddCommGroup G] [Module F G] (g : G)
    (t n : Nat) (secret : F) (rand : Nat → F) (j : Nat) (hj : j < n) :
    (VerifiableSS.share g t n secret rand).2.getD j 0 =
      (polyOfList (sample_polynomial t secret rand)).eval ((((j + 1) % U32_MOD) : Nat) : F) := by
  show (evaluate_polynomial n (sample_polynomial t secret rand)).getD j 0 = _
  exact evaluate_polynomial_getD_wrap n _ j hj

theorem share_getD {F G : Type} [Field F] [AddCommGroup G] [Module F G] (g : G)
    (t n : Nat) (secret : F) (rand : Nat → F) (j : Nat) (hj : j < n) (hn32 : n < U32_MOD) :
    (VerifiableSS.share g t n secret rand).2.getD j 0 =
      (polyOfList (sample_polynomial t secret rand)).eval ((j + 1 : Nat) : F) := by
  show (evaluate_polynomial n (sample_polynomial t secret rand)).getD j 0 = _
  exact evaluate_polynomial_getD n _ j hj hn32

theorem sample_polynomial_length {F : Type} (t : Nat) (secret : F) (rand : Nat → F) :
    (sample_polynomial t secret rand).length = t + 1 := by
  simp [sample_polynomial]

/-- Core reconstruction lemma: any `≥ t+1`-sized duplicate-free set of
in-range share indices reconstructs the dealt secret, provided `n` is below
the `u32` wrap and the `n` evaluation points are distinct in `F`. -/
theorem reconstruct_correct {F G : Type} [Field F] [DecidableEq F] [AddCommGroup G]
    [Module F G] (g : G) (t n : Nat) (secret : F) (rand : Nat → F)
    (hn32 : n < U32_MOD)
    (hinj : ∀ a, a < n → ∀ b, b < n → ((a + 1 : Nat) : F) = ((b + 1 : Nat) : F) → a = b)
    (indices : List Nat) (hlen : indices.length ≥ t + 1) (hnd : indices.Nodup)
    (hmem : ∀ i ∈ indices, i < n) :
    (VerifiableSS.share g t n secret rand).1.reconstruct indices
      (indices.map fun i => (VerifiableSS.share g t n secret rand).2.getD i 0)
      = some secret := by
  have hk1 : 0 < indices.length := lt_of_lt_of_le (Nat.succ_pos t) hlen
  unfold VerifiableSS.reconstruct
  rw [if_pos (by
    refine ⟨by simp, ?_⟩
    show (indices.map fun i => (VerifiableSS.share g t n secret rand).2.getD i 0).length ≥ t + 1
    simpa using hlen)]
  show lagrange_interpolation_at_zero
      (indices.map fun i => (((i % U32_MOD + 1) % U32_MOD : Nat) : F))
      (indices.map fun i => (VerifiableSS.share g t n secret rand).2.getD i 0) = some secret
  have hpteq : (indices.map fun i => (((i % U32_MOD + 1) % U32_MOD : Nat) : F)) =
      indices.map fun i => ((i + 1 : Nat) : F) := by
    refine List.map_congr_left fun i hi => ?_
    have h1 : i < n := hmem i hi
    rw [Nat.mod_eq_of_lt (show i < U32_MOD by omega),
      Nat.mod_eq_of_lt (show i + 1 < U32_MOD by omega)]
  rw [hpteq]
  have hvinj : ∀ i, i < indices.length → ∀ j, j < indices.length →
      ((indices.getD i 0 + 1 : Nat) : F) = ((indices.getD j 0 + 1 : Nat) : F) → i = j := by
    intro i hik j hjk hvij
    have hmi : indices.getD i 0 < n := by
      refine hmem _ ?_
      rw [List.getD_eq_getElem _ _ hik]
      exact List.getElem_mem hik
    have hmj : indices.getD j 0 < n := by
      refine hmem _ ?_
      rw [List.getD_eq_getElem _ _ hjk]
      exact List.getElem_mem hjk
    have heq : indices.getD i 0 = indices.getD j 0 := hinj _ hmi _ hmj hvij
    rw [List.getD_eq_getElem _ _ hik, List.getD_eq_getElem _ _ hjk] at heq
    have hget : indices.get ⟨i, hik⟩ = indices.get ⟨j, hjk⟩ := by
      simpa [List.get_eq_getElem] using heq
    exact congrArg Fin.val ((List.Nodup.get_inj_iff hnd).mp hget)
  have hdnz : ∀ i, i < indices.length →
      (∏ j in (Finset.range indices.length).erase i,
        ((indices.map fun i => ((i + 1 : Nat) : F)).getD j 0 -
          (indices.map fun i => ((i + 1 : Nat) : F)).getD i 0)) ≠ 0 := by
    intro i hik
    refine Finset.prod_ne_zero_iff.mpr fun j hj => ?_
    have hjk : j < indices.length := Finset.mem_range.mp (Finset.mem_of_mem_erase hj)
    have hji : j ≠ i := (Finset.mem_erase.mp hj).1
    rw [getD_map_lt _ _ j hjk 0 0, getD_map_lt _ _ i hik 0 0]
    intro hzero
    exact hji (hvinj j hjk i hik (sub_eq_zero.mp hzero))
  rw [lagrange_list_eq _ _ indices.length (by simp) (by simp) hk1 hdnz]
  set P := polyOfList (sample_polynomial t secret rand) with hP
  set v : Nat → F := fun i => ((indices.getD i 0 + 1 : Nat) : F) with hv
  have hpts : ∀ jj, jj < indices.length →
      (indices.map fun i => ((i + 1 : Nat) : F)).getD jj 0 = v jj := by
    intro jj hjj
    rw [getD_map_lt _ _ jj hjj 0 0]
  have hmem' : ∀ jj, jj < indices.length → indices.getD jj 0 < n := by
    intro jj hjj
    refine hmem _ ?_
    rw [List.getD_eq_getElem _ _ hjj]
    exact List.getElem_mem hjj
  have hvals : ∀ jj, jj < indices.length →
      (indices.map fun i => (VerifiableSS.share g t n secret rand).2.getD i 0).getD jj 0
        = P.eval (v jj) := by
    intro jj hjj
    rw [getD_map_lt _ _ jj hjj 0 0, share_getD g t n secret rand _ (hmem' jj hjj) hn32]
  have hsum : ∑ i in Finset.range indices.length,
      (∏ j in (Finset.range indices.length).erase i,
        (indices.map fun i => ((i + 1 : Nat) : F)).getD j 0) *
      (∏ j in (Finset.range indices.length).erase i,
        ((indices.map fun i => ((i + 1 : Nat) : F)).getD j 0 -
          (indices.map fun i => ((i + 1 : Nat) : F)).getD i 0))⁻¹ *
      (indices.map fun i => (VerifiableSS.share g t n secret rand).2.getD i 0).getD i 0
      = ∑ i in Finset.range indices.length,
        (∏ j in (Finset.range indices.length).erase i, v j) *
        (∏ j in (Finset.range indices.length).erase i, (v j - v i))⁻¹ * P.eval (v i) := by
    refine Finset.sum_congr rfl fun i hi => ?_
    have hik : i < indices.length := Finset.mem_range.mp hi
    have hjk : ∀ j ∈ (Finset.range indices.length).erase i, j < indices.length := by
      intro j hj
      exact Finset.mem_range.mp (Finset.mem_of_mem_erase hj)
    have e1 : (∏ j in (Finset.range indices.length).erase i,
        (indices.map fun i => ((i + 1 : Nat) : F)).getD j 0) =
        ∏ j in (Finset.range indices.length).erase i, v j :=
      Finset.prod_congr rfl fun j hj => hpts j (hjk j hj)
    have e2 : (∏ j in (Finset.range indices.length).erase i,
        ((indices.map fun i => ((i + 1 : Nat) : F)).getD j 0 -
          (indices.map fun i => ((i + 1 : Nat) : F)).getD i 0)) =
        ∏ j in (Finset.range indices.length).erase i, (v j - v i) :=
      Finset.prod_congr rfl fun j hj => by rw [hpts j (hjk j hj), hpts i hik]
    rw [e1, e2, hvals i hik]
  rw [hsum]
  have hinj' : Set.InjOn v (Finset.range indices.length) := by
    intro i hi j hj hvij
    exact hvinj i (Finset.mem_range.mp (Finset.mem_coe.mp hi))
      j (Finset.mem_range.mp (Finset.mem_coe.mp hj)) hvij
  have hdeg : P.degree < (Finset.range indices.length).card := by
    rw [Finset.card_range]
    refine lt_of_lt_of_le (polyOfList_degree_lt _) ?_
    rw [sample_polynomial_length]
    exact_mod_cast hlen
  rw [lagrange_core (Finset.range indices.length) v P hinj' hdeg, hP,
    polyOfList_eval_zero]
  rfl

/-! ## Commitment evaluation and share validation -/

theorem commPolyEval_nil {F G : Type} [Field F] [AddCommGroup G] [Module F G] (x : F) :
    commPolyEval ([] : List G) x = 0 := by
  simp [commPolyEval]

theorem commPolyEval_cons {F G : Type} [Field F] [AddCommGroup G] [Module F G]
    (c : G) (rest : List G) (x : F) :
    commPolyEval (c :: rest) x = c + x • commPolyEval rest x := by
  unfold commPolyEval
  rw [List.length_cons, Finset.sum_range_succ']
  simp only [List.getD_cons_succ, List.getD_cons_zero, pow_zero, one_smul]
  rw [Finset.smul_sum, add_comm]
  congr 1
  refine Finset.sum_congr rfl fun k _ => ?_
  rw [pow_succ', mul_smul]

theorem foldl_rev_comm {F G : Type} [Field F] [AddCommGroup G] [Module F G] :
    ∀ (l : List G) (x : F) (b : G) (tl : List G), l.reverse = b :: tl →
      tl.foldl (fun acc c => c + x • acc) b = commPolyEval l x
  | [], x, b, tl, h => by simp at h
  | [c], x, b, tl, h => by
    simp only [List.reverse_cons, List.reverse_nil, List.nil_append, List.cons.injEq] at h
    obtain ⟨rfl, rfl⟩ := h
    simp [commPolyEval_cons, commPolyEval_nil]
  | c :: d :: rest, x, b, tl, h => by
    rcases hrev : (d :: rest).reverse with _ | ⟨e, tl2⟩
    · exact absurd (congrArg List.length hrev) (by simp)
    · rw [List.reverse_cons, hrev, List.cons_append, List.cons.injEq] at h
      obtain ⟨rfl, rfl⟩ := h
      rw [List.foldl_append]
      simp only [List.foldl_cons, List.foldl_nil]
      rw [foldl_rev_comm (d :: rest) x _ tl2 hrev, commPolyEval_cons c (d :: rest) x]

/-- `validate_share` on a nonempty commitment vector compares `share • G`
with the commitment polynomial evaluated in the group at the index. -/
theorem validate_share_spec {F G : Type} [Field F] [AddCommGroup G] [Module F G]
    [DecidableEq G] (g : G) (vss : VerifiableSS G) (sh : F) (idx : Nat)
    (hne : vss.commitments ≠ []) :
    vss.validate_share g sh idx =
      some (if sh • g = commPolyEval vss.commitments ((idx % U32_MOD : Nat) : F) then
        Except.ok () else Except.error ErrorSS.VerifyShareError) := by
  unfold VerifiableSS.validate_share
  rcases hrev : vss.commitments.reverse with _ | ⟨b, tl⟩
  · exact absurd (List.reverse_eq_nil_iff.mp hrev) hne
  · show some (if sh • g = tl.foldl (fun acc x => x + ((idx % U32_MOD : Nat) : F) • acc) b
      then Except.ok () else Except.error ErrorSS.VerifyShareError) = _
    rw [foldl_rev_comm vss.commitments ((idx % U32_MOD : Nat) : F) b tl hrev]

theorem commPolyEval_map_smul {F G : Type} [Field F] [AddCommGroup G] [Module F G]
    (l : List F) (x : F) (g : G) :
    commPolyEval (l.map (fun a => a • g)) x = (polyOfList l).eval x • g := by
  unfold commPolyEval
  rw [List.length_map, polyOfList_eval_sum, Finset.sum_smul]
  refine Finset.sum_congr rfl fun k hk => ?_
  have hkl : k < l.length := Finset.mem_range.mp hk
  rw [getD_map_lt l _ k hkl 0 0, smul_smul, mul_comm]

/-! ## Reparameterization -/

theorem range_map_getD {α β : Type} (l : List α) (d : α) (h : α → β) :
    (List.range l.length).map (fun i => h (l.getD i d)) = l.map h := by
  apply List.ext_getElem
  · simp
  · intro i h1 h2
    have hil : i < l.length := by simpa using h1
    simp [List.getD_eq_getElem _ d hil, List.getElem?_eq_getElem hil]

theorem vss_points_getD_wrap {F : Type} [Field F] (n i : Nat) (hi : i < n) :
    (vss_points F n).getD i 0 = (((i % U32_MOD + 1) % U32_MOD : Nat) : F) := by
  unfold vss_points
  rw [getD_map_lt _ _ i (by simpa using hi) 0 0]
  have hr : (List.range n).getD i 0 = i := by
    rw [List.getD_eq_getElem _ _ (by simpa using hi)]
    simp
  rw [hr]

theorem vss_points_getD {F : Type} [Field F] (n i : Nat) (hi : i < n) (hn32 : n < U32_MOD) :
    (vss_points F n).getD i 0 = ((i + 1 : Nat) : F) := by
  rw [vss_points_getD_wrap n i hi,
    Nat.mod_eq_of_lt (show i < U32_MOD by omega),
    Nat.mod_eq_of_lt (show i + 1 < U32_MOD by omega)]

theorem vss_points_length {F : Type} [Field F] (n : Nat) :
    (vss_points F n).length = n := by
  simp [vss_points]

/-- On a distinct in-range live set, with `share_count` below the `u32`
wrap and distinct evaluation points, `map_share_to_new_params` returns the
ratio-of-products Lagrange coefficient for evaluation at zero. -/
theorem map_share_to_new_params_eq {F G : Type} [Field F] [DecidableEq F]
    (self : VerifiableSS G) (index : Nat) (s : List Nat)
    (hlen : s.length > self.reconstruct_limit)
    (hn32 : self.parameters.share_count < U32_MOD)
    (hinj : ∀ a, a < self.parameters.share_count → ∀ b, b < self.parameters.share_count →
      ((a + 1 : Nat) : F) = ((b + 1 : Nat) : F) → a = b)
    (hidx : index < self.parameters.share_count)
    (hclosed : ∀ e ∈ s, e < self.parameters.share_count)
    (hnd : s.Nodup) :
    self.map_share_to_new_params F index s =
      some ((∏ e in s.toFinset.erase index, ((e + 1 : Nat) : F)) *
        (∏ e in s.toFinset.erase index,
          (((e + 1 : Nat) : F) - ((index + 1 : Nat) : F)))⁻¹) := by
  unfold VerifiableSS.map_share_to_new_params
  rw [if_pos hlen, if_pos (by
    rw [vss_points_length]
    exact ⟨hidx, fun j hj _ => hclosed j hj⟩)]
  have hfold : ∀ h : F → F,
      (List.range s.length).foldl
        (fun acc i => if s.getD i 0 ≠ index then acc * h ((vss_points F
          self.parameters.share_count).getD (s.getD i 0) 0) else acc) 1 =
      ∏ e in s.toFinset.erase index, h ((vss_points F
        self.parameters.share_count).getD e 0) := by
    intro h
    rw [foldl_mul_ite (fun i => s.getD i 0 ≠ index)
      (fun i => h ((vss_points F self.parameters.share_count).getD (s.getD i 0) 0)),
      one_mul]
    have hcomp : ((List.range s.length).map (fun i =>
        if s.getD i 0 ≠ index then
          h ((vss_points F self.parameters.share_count).getD (s.getD i 0) 0) else 1)) =
        s.map (fun e => if e ≠ index then
          h ((vss_points F self.parameters.share_count).getD e 0) else 1) :=
      range_map_getD s 0 (fun e => if e ≠ index then
        h ((vss_points F self.parameters.share_count).getD e 0) else 1)
    rw [hcomp, ← List.prod_toFinset _ hnd, ← Finset.prod_filter, Finset.filter_ne']
  have hnum := hfold (fun a => a)
  have hden := hfold (fun a => a - (vss_points F self.parameters.share_count).getD index 0)
  show (invert ((List.range s.length).foldl _ 1)).map
    (fun dinv => (List.range s.length).foldl _ 1 * dinv) = _
  rw [hnum, hden]
  have hxi : (vss_points F self.parameters.share_count).getD index 0 =
      ((index + 1 : Nat) : F) := vss_points_getD _ _ hidx hn32
  have hmm : ∀ e ∈ s.toFinset.erase index,
      (vss_points F self.parameters.share_count).getD e 0 = ((e + 1 : Nat) : F) := by
    intro e he
    exact vss_points_getD _ _
      (hclosed e (List.mem_toFinset.mp (Finset.mem_of_mem_erase he))) hn32
  have e1 : (∏ e in s.toFinset.erase index,
      (vss_points F self.parameters.share_count).getD e 0) =
      ∏ e in s.toFinset.erase index, ((e + 1 : Nat) : F) :=
    Finset.prod_congr rfl hmm
  have e2 : (∏ e in s.toFinset.erase index,
      ((vss_points F self.parameters.share_count).getD e 0 -
        (vss_points F self.parameters.share_count).getD index 0)) =
      ∏ e in s.toFinset.erase index, (((e + 1 : Nat) : F) - ((index + 1 : Nat) : F)) :=
    Finset.prod_congr rfl fun e he => by rw [hmm e he, hxi]
  rw [e1, e2]
  have hdz : (∏ e in s.toFinset.erase index,
      (((e + 1 : Nat) : F) - ((index + 1 : Nat) : F))) ≠ 0 := by
    refine Finset.prod_ne_zero_iff.mpr fun e he => ?_
    have hei : e ≠ index := (Finset.mem_erase.mp he).1
    have hen : e < self.parameters.share_count :=
      hclosed e (List.mem_toFinset.mp (Finset.mem_of_mem_erase he))
    intro hzero
    exact hei (hinj e hen index hidx (sub_eq_zero.mp hzero))
  simp only [invert, if_neg hdz]
  rfl

/-! ## Byte-string lemmas -/

theorem fromBytesLE_cons (a : Nat) (l : List Nat) :
    fromBytesLE (a :: l) = a + 256 * fromBytesLE l := rfl

theorem fromBytesLE_bytesLEAux : ∀ (fuel n : Nat), n ≤ fuel →
    fromBytesLE (bytesLEAux fuel n) = n
  | 0, n, h => by
    simp only [Nat.le_zero.mp h, bytesLEAux]
    rfl
  | fuel + 1, n, h => by
    by_cases hn : n = 0
    · simp only [bytesLEAux, if_pos hn, hn]
      rfl
    · have hdiv : n / 256 ≤ fuel := by
        have := Nat.div_lt_self (Nat.pos_of_ne_zero hn) (by norm_num : (1:Nat) < 256)
        omega
      rw [bytesLEAux, if_neg hn, fromBytesLE_cons,
        fromBytesLE_bytesLEAux fuel (n / 256) hdiv]
      omega

theorem bytesLEAux_length : ∀ (fuel n k : Nat), n < 256 ^ k →
    (bytesLEAux fuel n).length ≤ k
  | 0, n, k, _ => by simp [bytesLEAux]
  | fuel + 1, n, k, h => by
    by_cases hn : n = 0
    · simp [bytesLEAux, if_pos hn]
    · cases k with
      | zero =>
        exfalso
        simp at h
        omega
      | succ m =>
        rw [bytesLEAux, if_neg hn, List.length_cons]
        have hdiv : n / 256 < 256 ^ m := by
          rw [Nat.div_lt_iff_lt_mul (by norm_num : (0:Nat) < 256)]
          calc n < 256 ^ (m + 1) := h
            _ = 256 ^ m * 256 := by rw [pow_succ]
        have := bytesLEAux_length fuel (n / 256) m hdiv
        omega

theorem bytesLEAux_bytes_lt : ∀ (fuel n : Nat), ∀ b ∈ bytesLEAux fuel n, b < 256
  | 0, n => by simp [bytesLEAux]
  | fuel + 1, n => by
    by_cases hn : n = 0
    · simp [bytesLEAux, if_pos hn]
    · rw [bytesLEAux, if_neg hn]
      intro b hb
      rcases List.mem_cons.mp hb with rfl | hb2
      · exact Nat.mod_lt _ (by norm_num)
      · exact bytesLEAux_bytes_lt fuel (n / 256) b hb2

theorem fromBytesLE_append_zeros (l : List Nat) (k : Nat) :
    fromBytesLE (l ++ List.replicate k 0) = fromBytesLE l := by
  unfold fromBytesLE
  rw [List.foldr_append]
  have hz : List.foldr (fun b acc => b + 256 * acc) 0 (List.replicate k 0) = 0 := by
    induction k with
    | zero => rfl
    | succ m ih => simp [List.replicate_succ, ih]
  rw [hz]

theorem fromBytesBE_pad (l : List Nat) (k : Nat) :
    fromBytesBE (List.replicate k 0 ++ l) = fromBytesBE l := by
  unfold fromBytesBE
  rw [List.reverse_append, List.reverse_replicate]
  exact fromBytesLE_append_zeros l.reverse k

theorem fromBytesBE_to_vec (n : Nat) : fromBytesBE (to_vec n) = n := by
  unfold fromBytesBE to_vec
  rw [List.reverse_reverse]
  exact fromBytesLE_bytesLEAux n n le_rfl

theorem bytes_unique : ∀ (l m : List Nat), l.length = m.length →
    (∀ b ∈ l, b < 256) → (∀ b ∈ m, b < 256) →
    fromBytesLE l = fromBytesLE m → l = m
  | [], [], _, _, _, _ => rfl
  | [], b :: m, h, _, _, _ => by simp at h
  | a :: l, [], h, _, _, _ => by simp at h
  | a :: l, b :: m, h, hl, hm, hv => by
    rw [fromBytesLE_cons, fromBytesLE_cons] at hv
    have ha : a < 256 := hl a (by simp)
    have hb : b < 256 := hm b (by simp)
    have hab : a = b ∧ fromBytesLE l = fromBytesLE m := by constructor <;> omega
    have hlen : l.length = m.length := by simpa using h
    rw [hab.1, bytes_unique l m hlen (fun x hx => hl x (by simp [hx]))
      (fun x hx => hm x (by simp [hx])) hab.2]

/-! ## Secret-key codec round-trip -/

theorem from_big_int_eq_some (n : Nat) (h0 : 0 < n) (hq : n < CURVE_ORDER) :
    ∃ v2, SecretKey.from_big_int n = some v2 ∧ v2.length = SECRET_KEY_SIZE ∧
      (∀ b ∈ v2, b < 256) ∧ fromBytesBE v2 = n := by
  have h32 : CURVE_ORDER < 256 ^ 32 := by norm_num [CURVE_ORDER]
  have hlen : (to_vec n).length ≤ SECRET_KEY_SIZE := by
    show (bytesLE n).reverse.length ≤ 32
    rw [List.length_reverse]
    exact bytesLEAux_length n n 32 (lt_trans hq h32)
  have hbytes : ∀ b ∈ to_vec n, b < 256 := by
    intro b hb
    exact bytesLEAux_bytes_lt n n b (List.mem_reverse.mp hb)
  simp only [SecretKey.from_big_int, SecretKey.from_slice]
  by_cases hshort : (to_vec n).length < SECRET_KEY_SIZE
  · rw [if_pos hshort]
    have hv2len : (List.replicate (SECRET_KEY_SIZE - (to_vec n).length) 0
        ++ to_vec n).length = SECRET_KEY_SIZE := by
      rw [List.length_append, List.length_replicate]
      omega
    have hv2val : fromBytesBE (List.replicate (SECRET_KEY_SIZE - (to_vec n).length) 0
        ++ to_vec n) = n := by
      rw [fromBytesBE_pad, fromBytesBE_to_vec]
    rw [if_pos ⟨hv2len, by rw [hv2val]; exact h0, by rw [hv2val]; exact hq⟩]
    refine ⟨_, rfl, hv2len, ?_, hv2val⟩
    intro b hb
    rcases List.mem_append.mp hb with hb1 | hb2
    · rw [List.eq_of_mem_replicate hb1]
      norm_num
    · exact hbytes b hb2
  · rw [if_neg hshort]
    have hv2len : (to_vec n).length = SECRET_KEY_SIZE := by omega
    have hv2val : fromBytesBE (to_vec n) = n := fromBytesBE_to_vec n
    rw [if_pos ⟨hv2len, by rw [hv2val]; exact h0, by rw [hv2val]; exact hq⟩]
    exact ⟨_, rfl, hv2len, hbytes, hv2val⟩

theorem from_big_int_round (n : Nat) (h0 : 0 < n) (hq : n < CURVE_ORDER) :
    (SecretKey.from_big_int n).map SecretKey.to_big_int = some n := by
  obtain ⟨v2, hv2, _, _, hval⟩ := from_big_int_eq_some n h0 hq
  rw [hv2]
  show some (fromBytesBE v2) = some n
  rw [hval]

theorem to_big_int_round (sk : List Nat) (hlen : sk.length = SECRET_KEY_SIZE)
    (hbytes : ∀ b ∈ sk, b < 256) (h0 : 0 < fromBytesBE sk)
    (hq : fromBytesBE sk < CURVE_ORDER) :
    SecretKey.from_big_int (SecretKey.to_big_int sk) = some sk := by
  obtain ⟨v2, hv2, hv2len, hv2bytes, hv2val⟩ :=
    from_big_int_eq_some (fromBytesBE sk) h0 hq
  have : v2 = sk := by
    have hrev : v2.reverse = sk.reverse := by
      apply bytes_unique
      · simp [hv2len, hlen]
      · intro b hb
        exact hv2bytes b (List.mem_reverse.mp hb)
      · intro b hb
        exact hbytes b (List.mem_reverse.mp hb)
      · exact hv2val.trans rfl
    simpa using congrArg List.reverse hrev
  rw [show SecretKey.to_big_int sk = fromBytesBE sk from rfl, hv2, this]

theorem from_big_int_CURVE_ORDER : SecretKey.from_big_int CURVE_ORDER = none := by
  simp only [SecretKey.from_big_int, SecretKey.from_slice]
  by_cases hshort : (to_vec CURVE_ORDER).length < SECRET_KEY_SIZE
  · rw [if_pos hshort, if_neg]
    rintro ⟨-, -, hlt⟩
    rw [fromBytesBE_pad, fromBytesBE_to_vec] at hlt
    exact lt_irrefl _ hlt
  · rw [if_neg hshort, if_neg]
    rintro ⟨-, -, hlt⟩
    rw [fromBytesBE_to_vec] at hlt
    exact lt_irrefl _ hlt

/-! ## Claim theorems -/

instance : Fact (Nat.Prime 11) := ⟨by norm_num⟩

/-- Claim C1, counterexample: with `n = 2^32 + 2` (and `t = 1`, so
`1 ≤ t < n`), the `i as u32 + 1` wrap of `feldman_vss.rs:101` collapses the
distinct indices `0` and `2^32` to the same evaluation point `1`, the
Lagrange denominator becomes zero, and the backend `invert` aborts: the
program returns no value where the claim promises `some secret`.  The
scalar field is instantiated at `ℚ` (characteristic zero, so no
field-level collision is involved — only the `u32` truncation). -/
theorem claim_C1_counterexample :
    (VerifiableSS.share (1 : ℚ) 1 4294967298 (3 : ℚ)
        (fun k => ((k : ℚ) + 5))).1.reconstruct [0, 4294967296]
      ([0, 4294967296].map fun i => (VerifiableSS.share (1 : ℚ) 1 4294967298 (3 : ℚ)
        (fun k => ((k : ℚ) + 5))).2.getD i 0) = none := by
  unfold VerifiableSS.reconstruct
  rw [if_pos (by
    refine ⟨by simp, ?_⟩
    show (List.map _ [0, 4294967296]).length ≥ _
    rw [List.length_map]
    exact le_refl 2)]
  show lagrange_interpolation_at_zero
      ([0, 4294967296].map fun i => (((i % U32_MOD + 1) % U32_MOD : Nat) : ℚ))
      ([0, 4294967296].map fun i => (VerifiableSS.share (1 : ℚ) 1 4294967298 (3 : ℚ)
        (fun k => ((k : ℚ) + 5))).2.getD i 0) = none
  have hpts : ([0, 4294967296].map fun i => (((i % U32_MOD + 1) % U32_MOD : Nat) : ℚ)) =
      [(1 : ℚ), (1 : ℚ)] := by
    norm_num [U32_MOD]
  rw [hpts]
  refine lagrange_none_of_denum_zero [(1 : ℚ), (1 : ℚ)] _ (by simp) 0 (by simp) ?_
  rw [List.length_map]
  show (∏ j in (Finset.range 2).erase 0, _) = 0
  rw [show (Finset.range 2).erase 0 = {1} from rfl, Finset.prod_singleton]
  norm_num

/-- Claim C1, amended: restricted to `n < 2^32` — the regime in which the
`as u32` casts do not truncate — reconstructing from any `t+1`-sized
duplicate-free set of in-range 0-based indices (with their shares) returns
exactly the original secret; since the result is always `some secret`, any
two distinct quorum subsets reconstruct the same value.  The hypothesis
`hinj` states that the `n` evaluation points `1..n` are distinct in the
scalar field, which holds in `Z_q` whenever `n < q` (always the case for
the 256-bit secp256k1 order). -/
theorem claim_C1_round_trip_sharing {F G : Type} [Field F] [DecidableEq F]
    [AddCommGroup G] [Module F G]
    (g : G) (t n : Nat) (secret : F) (rand : Nat → F)
    (ht : 1 ≤ t) (htn : t < n) (hn32 : n < U32_MOD)
    (hinj : ∀ a, a < n → ∀ b, b < n → ((a + 1 : Nat) : F) = ((b + 1 : Nat) : F) → a = b)
    (indices : List Nat) (hlen : indices.length = t + 1) (hnd : indices.Nodup)
    (hmem : ∀ i ∈ indices, i < n) :
    (VerifiableSS.share g t n secret rand).1.reconstruct indices
      (indices.map fun i => (VerifiableSS.share g t n secret rand).2.getD i 0)
      = some secret :=
  reconstruct_correct g t n secret rand hn32 hinj indices (le_of_eq hlen.symm) hnd hmem

theorem claim_C1_witness :
    (1 ≤ 1 ∧ 1 < 3 ∧ 3 < U32_MOD ∧ ([0, 2] : List Nat).Nodup ∧
      ([0, 2] : List Nat).length = 1 + 1) ∧
    (VerifiableSS.share (1 : ZMod 11) 1 3 (3 : ZMod 11)
        (fun k => ((k : ZMod 11) + 5))).1.reconstruct [0, 2]
      ([0, 2].map fun i => (VerifiableSS.share (1 : ZMod 11) 1 3 (3 : ZMod 11)
        (fun k => ((k : ZMod 11) + 5))).2.getD i 0) = some 3 :=
  ⟨⟨by decide, by decide, by decide, by decide, by decide⟩,
    claim_C1_round_trip_sharing (1 : ZMod 11) 1 3 3 _ (by decide) (by decide)
      (by decide) (by decide) [0, 2] (by decide) (by decide) (by decide)⟩

/-- Claim C2: every honestly generated share verifies against its own
sharing, at every 1-based index `i ∈ [1, n]`. -/
theorem claim_C2_validate_honest {F G : Type} [Field F] [AddCommGroup G] [Module F G]
    [DecidableEq G] (g : G) (t n : Nat) (secret : F) (rand : Nat → F)
    (ht : 1 ≤ t) (htn : t < n) (i : Nat) (hi1 : 1 ≤ i) (hin : i ≤ n) :
    (VerifiableSS.share g t n secret rand).1.validate_share g
      ((VerifiableSS.share g t n secret rand).2.getD (i - 1) 0) i
      = some (Except.ok ()) := by
  have hne : (VerifiableSS.share g t n secret rand).1.commitments ≠ [] := by
    show (sample_polynomial t secret rand).map (fun a => a • g) ≠ []
    simp [sample_polynomial]
  rw [validate_share_spec _ _ _ _ hne]
  have hsh : (VerifiableSS.share g t n secret rand).2.getD (i - 1) 0 =
      (polyOfList (sample_polynomial t secret rand)).eval
        ((((i - 1) + 1) % U32_MOD : Nat) : F) :=
    share_getD_wrap g t n secret rand _ (by omega)
  have hcast : (i - 1) + 1 = i := by omega
  rw [hcast] at hsh
  have hcomm : commPolyEval (VerifiableSS.share g t n secret rand).1.commitments
      ((i % U32_MOD : Nat) : F)
      = (polyOfList (sample_polynomial t secret rand)).eval ((i % U32_MOD : Nat) : F) • g := by
    show commPolyEval ((sample_polynomial t secret rand).map (fun a => a • g)) _ = _
    exact commPolyEval_map_smul _ _ g
  rw [hsh, hcomm, if_pos rfl]

theorem claim_C2_witness :
    (1 ≤ 1 ∧ 1 < 3 ∧ 1 ≤ 2 ∧ 2 ≤ 3) ∧
    (VerifiableSS.share (1 : ZMod 11) 1 3 (3 : ZMod 11)
        (fun k => ((k : ZMod 11) + 5))).1.validate_share (1 : ZMod 11)
      ((VerifiableSS.share (1 : ZMod 11) 1 3 (3 : ZMod 11)
        (fun k => ((k : ZMod 11) + 5))).2.getD (2 - 1) 0) 2 = some (Except.ok ()) :=
  ⟨⟨by decide, by decide, by decide, by decide⟩,
    claim_C2_validate_honest (1 : ZMod 11) 1 3 3 _ (by decide) (by decide) 2
      (by decide) (by decide)⟩

/-- Claim C3, counterexample: with `n = 2^32 + 2`, `t = 1` and the
duplicate-free in-range live set `S = {0, 1, 2^32}` (`|S| = 3 > t+1`), the
`i as u32 + 1` wrap in the points table (`feldman_vss.rs:178`) collapses
the entries for `0` and `2^32` to the same point `1`; the Lagrange
denominator of `λ_0` is zero and the backend `invert` aborts (spec §7), so
the program cannot produce the weighted sum the claim equates with the
secret.  Scalars are instantiated at `ℚ`, so only the `u32` truncation is
involved. -/
theorem claim_C3_counterexample :
    (VerifiableSS.share (1 : ℚ) 1 4294967298 (3 : ℚ)
      (fun k => ((k : ℚ) + 5))).1.map_share_to_new_params ℚ 0 [0, 1, 4294967296]
      = none := by
  have hlim : (VerifiableSS.share (1 : ℚ) 1 4294967298 (3 : ℚ)
      (fun k => ((k : ℚ) + 5))).1.reconstruct_limit = 2 := rfl
  have h0 : (vss_points ℚ 4294967298).getD 0 0 = (1 : ℚ) := by
    rw [vss_points_getD_wrap 4294967298 0 (by norm_num)]
    norm_num [U32_MOD]
  have h1 : (vss_points ℚ 4294967298).getD 1 0 = (2 : ℚ) := by
    rw [vss_points_getD_wrap 4294967298 1 (by norm_num)]
    norm_num [U32_MOD]
  have h2 : (vss_points ℚ 4294967298).getD 4294967296 0 = (1 : ℚ) := by
    rw [vss_points_getD_wrap 4294967298 4294967296 (by norm_num)]
    norm_num [U32_MOD]
  have hcount : (VerifiableSS.share (1 : ℚ) 1 4294967298 (3 : ℚ)
      (fun k => ((k : ℚ) + 5))).1.parameters.share_count = 4294967298 := rfl
  unfold VerifiableSS.map_share_to_new_params
  rw [if_pos (by rw [hlim]; norm_num)]
  rw [if_pos (by
    rw [vss_points_length, hcount]
    exact ⟨by norm_num, by decide⟩)]
  rw [hcount]
  show (invert ((List.range 3).foldl
      (fun acc i => if [0, 1, 4294967296].getD i 0 ≠ 0 then
        acc * ((vss_points ℚ 4294967298).getD ([0, 1, 4294967296].getD i 0) 0 -
          (vss_points ℚ 4294967298).getD 0 0) else acc) 1)).map
    (fun dinv => (List.range 3).foldl
      (fun acc i => if [0, 1, 4294967296].getD i 0 ≠ 0 then
        acc * (vss_points ℚ 4294967298).getD ([0, 1, 4294967296].getD i 0) 0 else acc) 1
      * dinv) = none
  rw [show List.range 3 = [0, 1, 2] from rfl]
  simp only [List.foldl_cons, List.foldl_nil, List.getD_cons_zero, List.getD_cons_succ]
  rw [h0, h1, h2]
  norm_num
  simp [invert]

/-- Claim C3, amended: restricted to `n < 2^32` (no `u32` truncation), on a
duplicate-free live set `S` of in-range indices with `|S| > t+1`, every
`map_share_to_new_params` coefficient is produced, the weighted sum
`Σ_{i∈S} λ_i · share_i` equals the dealt secret, and direct reconstruction
over `S` recovers that same secret. -/
theorem claim_C3_reparameterization {F G : Type} [Field F] [DecidableEq F]
    [AddCommGroup G] [Module F G]
    (g : G) (t n : Nat) (secret : F) (rand : Nat → F)
    (ht : 1 ≤ t) (htn : t < n) (hn32 : n < U32_MOD)
    (hinj : ∀ a, a < n → ∀ b, b < n → ((a + 1 : Nat) : F) = ((b + 1 : Nat) : F) → a = b)
    (s : List Nat) (hsize : s.length > t + 1) (hnd : s.Nodup)
    (hmem : ∀ e ∈ s, e < n) :
    (∀ i ∈ s, ((VerifiableSS.share g t n secret rand).1.map_share_to_new_params
      F i s).isSome) ∧
    (s.map fun i => ((VerifiableSS.share g t n secret rand).1.map_share_to_new_params
        F i s).getD 0 * (VerifiableSS.share g t n secret rand).2.getD i 0).sum = secret ∧
    (VerifiableSS.share g t n secret rand).1.reconstruct s
      (s.map fun i => (VerifiableSS.share g t n secret rand).2.getD i 0) = some secret := by
  have hlim : (VerifiableSS.share g t n secret rand).1.reconstruct_limit = t + 1 := rfl
  have hcount : (VerifiableSS.share g t n secret rand).1.parameters.share_count = n := rfl
  have hmap : ∀ i ∈ s, (VerifiableSS.share g t n secret rand).1.map_share_to_new_params F i s =
      some ((∏ e in s.toFinset.erase i, ((e + 1 : Nat) : F)) *
        (∏ e in s.toFinset.erase i, (((e + 1 : Nat) : F) - ((i + 1 : Nat) : F)))⁻¹) := by
    intro i hi
    refine map_share_to_new_params_eq _ i s ?_ ?_ ?_ ?_ ?_ hnd
    · rw [hlim]
      exact hsize
    · rw [hcount]
      exact hn32
    · rw [hcount]
      exact hinj
    · rw [hcount]
      exact hmem i hi
    · rw [hcount]
      exact hmem
  refine ⟨fun i hi => by rw [hmap i hi]; rfl, ?_,
    reconstruct_correct g t n secret rand hn32 hinj s (le_of_lt hsize) hnd hmem⟩
  have hterm : ∀ i ∈ s,
      ((VerifiableSS.share g t n secret rand).1.map_share_to_new_params F i s).getD 0 *
        (VerifiableSS.share g t n secret rand).2.getD i 0 =
      (∏ e in s.toFinset.erase i, ((e + 1 : Nat) : F)) *
        (∏ e in s.toFinset.erase i, (((e + 1 : Nat) : F) - ((i + 1 : Nat) : F)))⁻¹ *
        (polyOfList (sample_polynomial t secret rand)).eval ((i + 1 : Nat) : F) := by
    intro i hi
    rw [hmap i hi, share_getD g t n secret rand i (hmem i hi) hn32]
    rfl
  rw [List.map_congr_left hterm, ← List.sum_toFinset _ hnd]
  have hv : Set.InjOn (fun e : Nat => ((e + 1 : Nat) : F)) ↑s.toFinset := by
    intro a ha b hb heq
    exact hinj a (hmem a (List.mem_toFinset.mp ha)) b (hmem b (List.mem_toFinset.mp hb)) heq
  have hdeg : (polyOfList (sample_polynomial t secret rand)).degree < s.toFinset.card := by
    rw [List.toFinset_card_of_nodup hnd]
    refine lt_of_lt_of_le (polyOfList_degree_lt _) ?_
    rw [sample_polynomial_length]
    exact_mod_cast le_of_lt hsize
  rw [lagrange_core s.toFinset (fun e : Nat => ((e + 1 : Nat) : F))
    (polyOfList (sample_polynomial t secret rand)) hv hdeg, polyOfList_eval_zero]
  rfl

theorem claim_C3_witness :
    (1 ≤ 1 ∧ 1 < 4 ∧ 4 < U32_MOD ∧ ([0, 1, 2] : List Nat).length > 1 + 1 ∧
      ([0, 1, 2] : List Nat).Nodup) ∧
    (([0, 1, 2] : List Nat).map fun i =>
      ((VerifiableSS.share (1 : ZMod 11) 1 4 (3 : ZMod 11)
          (fun k => ((k : ZMod 11) + 5))).1.map_share_to_new_params (ZMod 11) i [0, 1, 2]).getD 0 *
        (VerifiableSS.share (1 : ZMod 11) 1 4 (3 : ZMod 11)
          (fun k => ((k : ZMod 11) + 5))).2.getD i 0).sum = 3 :=
  ⟨⟨by decide, by decide, by decide, by decide, by decide⟩,
    (claim_C3_reparameterization (1 : ZMod 11) 1 4 3 _ (by decide) (by decide)
      (by decide) (by decide) [0, 1, 2] (by decide) (by decide) (by decide)).2.1⟩

/-- Claim C4, counterexample: at `n = 2^32` the `point as u32` cast of
`feldman_vss.rs:76` truncates the last evaluation point, so
`shares[2^32 - 1]` is the polynomial evaluated at `(2^32) mod 2^32 = 0`
(i.e. the secret itself), not at the point `j + 1 = 2^32` the claim
asserts.  Scalars are instantiated at `ℚ`, where the two evaluations
differ. -/
theorem claim_C4_counterexample :
    ¬ ((VerifiableSS.share (1 : ℚ) 1 4294967296 (3 : ℚ)
        (fun k => ((k : ℚ) + 5))).2.getD 4294967295 0 =
      (polyOfList (sample_polynomial 1 (3 : ℚ) (fun k => ((k : ℚ) + 5)))).eval
        ((4294967295 + 1 : Nat) : ℚ)) := by
  rw [share_getD_wrap (1 : ℚ) 1 4294967296 3 (fun k => ((k : ℚ) + 5)) 4294967295
    (by norm_num)]
  rw [show ((4294967295 + 1) % U32_MOD) = 0 from by norm_num [U32_MOD]]
  simp only [sample_polynomial, polyOfList, List.range, List.range.loop, List.map]
  simp only [Polynomial.eval_add, Polynomial.eval_mul, Polynomial.eval_C, Polynomial.eval_X,
    Polynomial.eval_zero, Nat.cast_zero, Nat.cast_ofNat]
  intro hcon
  norm_num at hcon

/-- Claim C4, amended: restricted to `n < 2^32` (no `u32` truncation of the
evaluation points), `share t n secret` returns `t+1` commitments where
entry `k` is coefficient `k` of the sampled polynomial times the generator
(so `C_0 = secret • G`), together with `n` shares where `shares[j]` is the
polynomial evaluated at the point `j + 1`. -/
theorem claim_C4_share_structure {F G : Type} [Field F] [AddCommGroup G] [Module F G]
    (g : G) (t n : Nat) (secret : F) (rand : Nat → F) (k j : Nat)
    (hk : k ≤ t) (hj : j < n) (hn32 : n < U32_MOD) :
    (VerifiableSS.share g t n secret rand).1.commitments.length = t + 1 ∧
    (VerifiableSS.share g t n secret rand).2.length = n ∧
    (VerifiableSS.share g t n secret rand).1.commitments.getD k 0 =
      (sample_polynomial t secret rand).getD k 0 • g ∧
    (VerifiableSS.share g t n secret rand).1.commitments.getD 0 0 = secret • g ∧
    (VerifiableSS.share g t n secret rand).2.getD j 0 =
      (polyOfList (sample_polynomial t secret rand)).eval ((j + 1 : Nat) : F) := by
  refine ⟨?_, ?_, ?_, ?_, share_getD g t n secret rand j hj hn32⟩
  · show ((sample_polynomial t secret rand).map (fun a => a • g)).length = t + 1
    simp [sample_polynomial]
  · show (evaluate_polynomial n (sample_polynomial t secret rand)).length = n
    simp [evaluate_polynomial]
  · show ((sample_polynomial t secret rand).map (fun a => a • g)).getD k 0 = _
    rw [getD_map_lt _ _ k (by rw [sample_polynomial_length]; omega) 0 0]
  · show ((sample_polynomial t secret rand).map (fun a => a • g)).getD 0 0 = _
    rw [getD_map_lt _ _ 0 (by rw [sample_polynomial_length]; omega) 0 0]
    rfl

theorem claim_C4_witness :
    (1 ≤ 1 ∧ 0 < 3 ∧ 3 < U32_MOD) ∧
    ((VerifiableSS.share (1 : ZMod 11) 1 3 (3 : ZMod 11)
        (fun k => ((k : ZMod 11) + 5))).1.commitments.length = 1 + 1 ∧
      (VerifiableSS.share (1 : ZMod 11) 1 3 (3 : ZMod 11)
        (fun k => ((k : ZMod 11) + 5))).2.length = 3 ∧
      (VerifiableSS.share (1 : ZMod 11) 1 3 (3 : ZMod 11)
        (fun k => ((k : ZMod 11) + 5))).1.commitments.getD 1 0 =
        (sample_polynomial 1 (3 : ZMod 11) (fun k => ((k : ZMod 11) + 5))).getD 1 0 •
          (1 : ZMod 11) ∧
      (VerifiableSS.share (1 : ZMod 11) 1 3 (3 : ZMod 11)
        (fun k => ((k : ZMod 11) + 5))).1.commitments.getD 0 0 = (3 : ZMod 11) • (1 : ZMod 11) ∧
      (VerifiableSS.share (1 : ZMod 11) 1 3 (3 : ZMod 11)
        (fun k => ((k : ZMod 11) + 5))).2.getD 0 0 =
        (polyOfList (sample_polynomial 1 (3 : ZMod 11)
          (fun k => ((k : ZMod 11) + 5)))).eval ((0 + 1 : Nat) : ZMod 11)) :=
  ⟨⟨by decide, by decide, by decide⟩,
    claim_C4_share_structure (1 : ZMod 11) 1 3 3 _ 1 0 (by decide) (by decide) (by decide)⟩

/-- Claim C5 (code bug): `to_key_slice` emits the minimal-length coordinate
bytes without left-padding, so the valid curve point with `x = 1` serializes
to 34 bytes and `from_key_slice` then aborts on its 65-byte length
assertion (`none`) instead of returning the point: the round-trip fails on
a valid point. -/
theorem claim_C5_round_trip_fails :
    onCurve pSmallX ∧
      PublicKey.from_key_slice (PublicKey.to_key_slice pSmallX) = none := by
  exact ⟨by decide, by decide⟩

/-- Claim C6 (code bug): for the valid curve point with `x = 1` the
serialization is 34 bytes, not the claimed `1 + 2·32 = 65` (`KEY_SIZE`). -/
theorem claim_C6_length_violated :
    onCurve pSmallX ∧ (PublicKey.to_key_slice pSmallX).length = 34 ∧
      (34 : Nat) ≠ KEY_SIZE := by
  exact ⟨by decide, by decide, by decide⟩

/-- Claim C7, counterexample: `from_big_int` does not reduce its input
modulo `q`; at `n = CURVE_ORDER` it aborts (the external `from_slice`
rejects the 32-byte value `q` and the `unwrap` panics) instead of
producing `q mod q = 0`. -/
theorem claim_C7_counterexample :
    (SecretKey.from_big_int CURVE_ORDER).map SecretKey.to_big_int ≠
      some (CURVE_ORDER % CURVE_ORDER) := by
  rw [from_big_int_CURVE_ORDER]
  simp

/-- Claim C7, amended: the scalar codec round-trips without any modular
reduction, exactly on the in-range values: `to_big_int (from_big_int n) = n`
for `0 < n < q`, and `from_big_int (to_big_int sk) = sk` for every valid
32-byte key; out-of-range inputs abort instead of being reduced. -/
theorem claim_C7_codec_round_trip (n : Nat) (sk : List Nat) (h0 : 0 < n)
    (hq : n < CURVE_ORDER) (hsklen : sk.length = SECRET_KEY_SIZE)
    (hskbytes : ∀ b ∈ sk, b < 256) (hsk0 : 0 < fromBytesBE sk)
    (hskq : fromBytesBE sk < CURVE_ORDER) :
    (SecretKey.from_big_int n).map SecretKey.to_big_int = some n ∧
    SecretKey.from_big_int (SecretKey.to_big_int sk) = some sk :=
  ⟨from_big_int_round n h0 hq, to_big_int_round sk hsklen hskbytes hsk0 hskq⟩

theorem claim_C7_witness :
    (0 < 5 ∧ 5 < CURVE_ORDER ∧
      (List.replicate 31 (0 : Nat) ++ [7]).length = SECRET_KEY_SIZE) ∧
    (SecretKey.from_big_int 5).map SecretKey.to_big_int = some 5 ∧
    SecretKey.from_big_int (SecretKey.to_big_int (List.replicate 31 (0 : Nat) ++ [7])) =
      some (List.replicate 31 (0 : Nat) ++ [7]) :=
  ⟨⟨by decide, by decide, by decide⟩,
    claim_C7_codec_round_trip 5 _ (by decide) (by decide) (by decide) (by decide)
      (by decide) (by decide)⟩

/-- Claim C8, counterexample: on a `VerifiableSS` whose commitment vector
is empty, `validate_share` aborts (the head `unwrap` of the reversed
commitment iterator panics, modelled by `none`) instead of returning the
recoverable `Err(VerifyShareError)` the claim promises for every
`VerifiableSS`. -/
theorem claim_C8_counterexample :
    VerifiableSS.validate_share (1 : ZMod 11)
      ⟨⟨1, 3⟩, ([] : List (ZMod 11))⟩ (2 : ZMod 11) 3 = none := rfl

/-- Claim C8, amended: for every `VerifiableSS` with a nonempty commitment
vector (every value satisfying the data-model invariant, in particular any
produced by `share`), `validate_share` always returns a value — `Ok(())`
exactly when `share • G` equals the commitment polynomial evaluated in the
group at the `u32`-truncated index `idx mod 2^32` (the `index as u32` cast
of `feldman_vss.rs:156`), and the recoverable `Err(VerifyShareError)`
exactly when it does not. -/
theorem claim_C8_validate_result {F G : Type} [Field F] [AddCommGroup G] [Module F G]
    [DecidableEq G] (g : G) (vss : VerifiableSS G) (sh : F) (idx : Nat)
    (hne : vss.commitments ≠ []) :
    (vss.validate_share g sh idx).isSome ∧
    (vss.validate_share g sh idx = some (Except.ok ()) ↔
      sh • g = commPolyEval vss.commitments ((idx % U32_MOD : Nat) : F)) ∧
    (vss.validate_share g sh idx = some (Except.error ErrorSS.VerifyShareError) ↔
      sh • g ≠ commPolyEval vss.commitments ((idx % U32_MOD : Nat) : F)) := by
  rw [validate_share_spec g vss sh idx hne]
  by_cases h : sh • g = commPolyEval vss.commitments ((idx % U32_MOD : Nat) : F)
  · rw [if_pos h]
    exact ⟨rfl, by simp [h], by simp [h]⟩
  · rw [if_neg h]
    exact ⟨rfl, by simp [h], by simp [h]⟩

theorem claim_C8_witness :
    ((⟨⟨1, 3⟩, [(2 : ZMod 11)]⟩ : VerifiableSS (ZMod 11)).commitments ≠ []) ∧
    ((VerifiableSS.validate_share (1 : ZMod 11)
        ⟨⟨1, 3⟩, [(2 : ZMod 11)]⟩ (2 : ZMod 11) 1).isSome ∧
      (VerifiableSS.validate_share (1 : ZMod 11)
          ⟨⟨1, 3⟩, [(2 : ZMod 11)]⟩ (2 : ZMod 11) 1 = some (Except.ok ()) ↔
        (2 : ZMod 11) • (1 : ZMod 11) =
          commPolyEval [(2 : ZMod 11)] ((1 % U32_MOD : Nat) : ZMod 11)) ∧
      (VerifiableSS.validate_share (1 : ZMod 11)
          ⟨⟨1, 3⟩, [(2 : ZMod 11)]⟩ (2 : ZMod 11) 1 =
            some (Except.error ErrorSS.VerifyShareError) ↔
        (2 : ZMod 11) • (1 : ZMod 11) ≠
          commPolyEval [(2 : ZMod 11)] ((1 % U32_MOD : Nat) : ZMod 11))) :=
  ⟨by decide,
    claim_C8_validate_result (1 : ZMod 11) ⟨⟨1, 3⟩, [(2 : ZMod 11)]⟩ (2 : ZMod 11) 1
      (by decide)⟩

/-- Claim C9: `reconstruct` aborts (returns no value) whenever the index
and share lists have different lengths or fewer than `t+1` shares are
supplied, and `map_share_to_new_params` aborts whenever the live set does
not exceed `t+1` elements — no silently wrong value is produced. -/
theorem claim_C9_fail_fast {F G : Type} [Field F] [DecidableEq F] (vss : VerifiableSS G)
    (indices : List Nat) (shares : List F) (s : List Nat) (i : Nat)
    (h1 : indices.length ≠ shares.length ∨ shares.length < vss.reconstruct_limit)
    (h2 : s.length ≤ vss.reconstruct_limit) :
    vss.reconstruct indices shares = none ∧
      vss.map_share_to_new_params F i s = none := by
  constructor
  · unfold VerifiableSS.reconstruct
    rw [if_neg]
    rintro ⟨hl, hge⟩
    rcases h1 with h | h
    · exact h hl.symm
    · omega
  · unfold VerifiableSS.map_share_to_new_params
    rw [if_neg]
    omega

theorem claim_C9_witness :
    (([0] : List Nat).length ≠ ([] : List (ZMod 11)).length ∧
      ([0, 1] : List Nat).length ≤
        (⟨⟨1, 3⟩, [(1 : ZMod 11)]⟩ : VerifiableSS (ZMod 11)).reconstruct_limit) ∧
    ((⟨⟨1, 3⟩, [(1 : ZMod 11)]⟩ : VerifiableSS (ZMod 11)).reconstruct [0]
        ([] : List (ZMod 11)) = none ∧
      (⟨⟨1, 3⟩, [(1 : ZMod 11)]⟩ : VerifiableSS (ZMod 11)).map_share_to_new_params
        (ZMod 11) 0 [0, 1] = none) :=
  ⟨⟨by decide, by decide⟩,
    claim_C9_fail_fast _ [0] ([] : List (ZMod 11)) [0, 1] 0
      (Or.inl (by decide)) (by decide)⟩

/-- Claim C10: given a live set larger than `t+1`, the evaluation-point
table built by `map_share_to_new_params` has exactly `n = share_count`
entries, and the call returns normally ONLY when `index < n` and every
element of the live set is below `n`: any out-of-bounds index or live-set
element makes the call abort on the table lookup rather than compute a
coefficient. -/
theorem claim_C10_bounds {F G : Type} [Field F] [DecidableEq F] (vss : VerifiableSS G)
    (index : Nat) (s : List Nat) (hgt : s.length > vss.reconstruct_limit) :
    (vss_points F vss.parameters.share_count).length = vss.parameters.share_count ∧
    ((vss.map_share_to_new_params F index s).isSome →
      (index < vss.parameters.share_count ∧
        ∀ e ∈ s, e < vss.parameters.share_count)) ∧
    (¬ (index < vss.parameters.share_count ∧
        ∀ e ∈ s, e < vss.parameters.share_count) →
      vss.map_share_to_new_params F index s = none) := by
  refine ⟨vss_points_length _, ?_, ?_⟩
  · intro hsome
    unfold VerifiableSS.map_share_to_new_params at hsome
    rw [if_pos hgt] at hsome
    by_cases hcond : index < (vss_points F vss.parameters.share_count).length ∧
        ∀ j ∈ s, j ≠ index → j < (vss_points F vss.parameters.share_count).length
    · rw [vss_points_length] at hcond
      refine ⟨hcond.1, fun e he => ?_⟩
      by_cases hei : e = index
      · rw [hei]
        exact hcond.1
      · exact hcond.2 e he hei
    · rw [if_neg hcond] at hsome
      simp at hsome
  · intro hnot
    unfold VerifiableSS.map_share_to_new_params
    rw [if_pos hgt, if_neg]
    rintro ⟨hidx, hall⟩
    rw [vss_points_length] at hidx hall
    refine hnot ⟨hidx, fun e he => ?_⟩
    by_cases hei : e = index
    · rw [hei]
      exact hidx
    · exact hall e he hei

theorem claim_C10_witness :
    (([0, 1, 2] : List Nat).length >
      (⟨⟨1, 3⟩, [(1 : ZMod 11)]⟩ : VerifiableSS (ZMod 11)).reconstruct_limit) ∧
    ((vss_points (ZMod 11)
        (⟨⟨1, 3⟩, [(1 : ZMod 11)]⟩ : VerifiableSS (ZMod 11)).parameters.share_count).length =
      (⟨⟨1, 3⟩, [(1 : ZMod 11)]⟩ : VerifiableSS (ZMod 11)).parameters.share_count ∧
    (((⟨⟨1, 3⟩, [(1 : ZMod 11)]⟩ : VerifiableSS (ZMod 11)).map_share_to_new_params
        (ZMod 11) 1 [0, 1, 2]).isSome →
      (1 < (⟨⟨1, 3⟩, [(1 : ZMod 11)]⟩ : VerifiableSS (ZMod 11)).parameters.share_count ∧
        ∀ e ∈ ([0, 1, 2] : List Nat),
          e < (⟨⟨1, 3⟩, [(1 : ZMod 11)]⟩ : VerifiableSS (ZMod 11)).parameters.share_count)) ∧
    (¬ (1 < (⟨⟨1, 3⟩, [(1 : ZMod 11)]⟩ : VerifiableSS (ZMod 11)).parameters.share_count ∧
        ∀ e ∈ ([0, 1, 2] : List Nat),
          e < (⟨⟨1, 3⟩, [(1 : ZMod 11)]⟩ : VerifiableSS (ZMod 11)).parameters.share_count) →
      (⟨⟨1, 3⟩, [(1 : ZMod 11)]⟩ : VerifiableSS (ZMod 11)).map_share_to_new_params
        (ZMod 11) 1 [0, 1, 2] = none)) :=
  ⟨by decide,
    claim_C10_bounds (⟨⟨1, 3⟩, [(1 : ZMod 11)]⟩ : VerifiableSS (ZMod 11)) 1 [0, 1, 2]
      (by decide)⟩

end Curv
